import Mathlib

/-!
Shallow embedding of the GPHS441 plate-rotation library (GPHS441_plates.py)
over exact real arithmetic, together with theorems settling the
specification claims.  Machine floating point is modelled by the real
numbers, so every claim stated "within floating-point tolerance" is proved
as an exact equality of reals.
-/

namespace GPHS441

open Real Matrix

noncomputable section

/-- Embedding of length (lines 11-24): np.sqrt(v.dot(v)). -/
def length {n : ℕ} (v : Fin n → ℝ) : ℝ := Real.sqrt (v ⬝ᵥ v)

/-- np.radians: decimal degrees to radians. -/
def radians (d : ℝ) : ℝ := d * π / 180

/-- np.degrees: radians to decimal degrees. -/
def degrees (r : ℝ) : ℝ := r * 180 / π

/-- np.mod(a, b) for real arguments: a - b * floor(a / b). -/
def npMod (a b : ℝ) : ℝ := a - b * (⌊a / b⌋ : ℝ)

/-- Embedding of positionVector (lines 26-47): the two components of the
input array are passed separately. -/
def positionVector (lon lat : ℝ) : Fin 3 → ℝ :=
  ![Real.cos (radians lon) * Real.cos (radians lat),
    Real.sin (radians lon) * Real.cos (radians lat),
    Real.sin (radians lat)]

/-- The four-way longitude branch of lonlat (lines 76-85), on the already
normalized components x and y.  np.sign is Real.sign (-1, 0 or 1). -/
def lonBranch (x y : ℝ) : ℝ :=
  if x = 0 then Real.sign y * 90
  else if 0 < x then degrees (Real.arctan (y / x))
  else if y = 0 then 180 + degrees (Real.arctan (y / x))
  else Real.sign y * 180 + degrees (Real.arctan (y / x))

/-- Embedding of lonlat (lines 49-90) on a 3-vector (the shape guard is
modelled separately by lonlatChecked): divide by the length, take
arcsin of z for the latitude, the sign-driven branch for the longitude,
then reduce the longitude mod 360. -/
def lonlat (v : Fin 3 → ℝ) : ℝ × ℝ :=
  (npMod (lonBranch (v 0 / length v) (v 1 / length v)) 360,
   degrees (Real.arcsin (v 2 / length v)))

/-- Embedding of M (lines 92-114): the skew matrix of h (shape guard
modelled separately by MChecked). -/
def M (h : Fin 3 → ℝ) : Matrix (Fin 3) (Fin 3) ℝ :=
  !![0, -h 2, h 1; h 2, 0, -h 0; -h 1, h 0, 0]

/-- Embedding of rotationMatrix (lines 116-139): angle = length h; the
identity when angle = 0, otherwise Rodrigues with the normalized pole
(the source binds h/angle once; it is inlined here). -/
def rotationMatrix (h : Fin 3 → ℝ) : Matrix (Fin 3) (Fin 3) ℝ :=
  if length h = 0 then 1
  else
    1 + Real.sin (length h) • M (fun i => h i / length h)
      + (1 - Real.cos (length h)) •
          (M (fun i => h i / length h) * M (fun i => h i / length h))

/-- Embedding of hVector (lines 141-158). -/
def hVector (R : Matrix (Fin 3) (Fin 3) ℝ) : Fin 3 → ℝ :=
  fun i => Real.arccos ((Matrix.trace R - 1) / 2) *
    (![R 2 1 - R 1 2, R 0 2 - R 2 0, R 1 0 - R 0 1] i /
      length ![R 2 1 - R 1 2, R 0 2 - R 2 0, R 1 0 - R 0 1])

/-- lonlat with the shape guard of lines 64-66: a list input of length
other than 3 raises ValueError, modelled as none. -/
def lonlatChecked (v : List ℝ) : Option (ℝ × ℝ) :=
  if h : v.length = 3 then
    some (lonlat ![v.get ⟨0, by omega⟩, v.get ⟨1, by omega⟩, v.get ⟨2, by omega⟩])
  else none

/-- M with the shape guard of lines 108-110. -/
def MChecked (v : List ℝ) : Option (Matrix (Fin 3) (Fin 3) ℝ) :=
  if h : v.length = 3 then
    some (M ![v.get ⟨0, by omega⟩, v.get ⟨1, by omega⟩, v.get ⟨2, by omega⟩])
  else none

/-- rotationMatrix with the shape guard of lines 129-131. -/
def rotationMatrixChecked (v : List ℝ) : Option (Matrix (Fin 3) (Fin 3) ℝ) :=
  if h : v.length = 3 then
    some (rotationMatrix ![v.get ⟨0, by omega⟩, v.get ⟨1, by omega⟩, v.get ⟨2, by omega⟩])
  else none

end

/-! Embedding of readGMTxy (lines 160-189).  A file is a list of lines,
each line the list of its whitespace-separated tokens after strip();
a float literal token carries its value exactly as a rational. -/

/-- A token of a GMT xy file line: the marker token ">", a token that
float() accepts (value kept as a rational), or any other token. -/
inductive Tok where
  | gt : Tok
  | num : ℚ → Tok
  | bad : Tok
deriving DecidableEq

/-- Python float(token): succeeds exactly on numeric tokens; the marker
">" and malformed tokens raise ValueError, modelled as none. -/
def floatOf : Tok → Option ℚ
  | Tok.num q => some q
  | _ => none

/-- The loop of readGMTxy (lines 178-188) with its three accumulators.
A Python IndexError (empty line after split, missing second token) or
ValueError (float() failure) is modelled as none.  After the loop the
pending segment x, y is NOT appended: only feature is returned. -/
def readGMTxyGo : List (List Tok) → List (List ℚ × List ℚ) → List ℚ →
    List ℚ → Option (List (List ℚ × List ℚ))
  | [], feature, _, _ => some feature
  | line :: rest, feature, x, y =>
    match line with
    | [] => none
    | w0 :: ws =>
      if w0 = Tok.gt then
        if x = [] then readGMTxyGo rest feature [] []
        else readGMTxyGo rest (feature ++ [(x, y)]) [] []
      else
        match floatOf w0, ws with
        | some a, w1 :: _ =>
          match floatOf w1 with
          | some b => readGMTxyGo rest feature (x ++ [a]) (y ++ [b])
          | none => none
        | _, _ => none

/-- Embedding of readGMTxy (lines 160-189). -/
def readGMTxy (lines : List (List Tok)) : Option (List (List ℚ × List ℚ)) :=
  readGMTxyGo lines [] [] []

/-- A marker line: its first token is exactly the ">" token. -/
def isMarker (line : List Tok) : Bool :=
  match line with
  | Tok.gt :: _ => true
  | _ => false

/-- The chunks of consecutive non-marker lines delimited by marker lines:
k marker lines split the file into k + 1 chunks, in file order. -/
def chunks : List (List Tok) → List (List (List Tok))
  | [] => [[]]
  | l :: ls =>
    if isMarker l then [] :: chunks ls
    else
      match chunks ls with
      | c :: cs => (l :: c) :: cs
      | [] => [[l]]

/-- The x value of a data line: its first token. -/
def xValOf (line : List Tok) : ℚ :=
  match line with
  | Tok.num a :: _ => a
  | _ => 0

/-- The y value of a data line: its second token. -/
def yValOf (line : List Tok) : ℚ :=
  match line with
  | _ :: Tok.num b :: _ => b
  | _ => 0

/-- The segment parsed from a chunk of data lines: the list of x values
paired with the list of y values. -/
def segOf (chunk : List (List Tok)) : List ℚ × List ℚ :=
  (chunk.map xValOf, chunk.map yValOf)

/-- Modelled from the spec contract (section 6), as amended: a marker
line starts a new segment, every other line appends its (x, y) pair to
the current segment, empty segments are discarded, and only segments
closed by a later marker line are returned: the chunk after the last
marker (the whole file when there is no marker) is discarded. -/
def readGMTxySpec (lines : List (List Tok)) : List (List ℚ × List ℚ) :=
  (((chunks lines).dropLast).filter (fun c => !c.isEmpty)).map segOf

/-- A line the source accepts: a marker line, or a line whose first two
tokens both parse as floats. -/
def wfLine (line : List Tok) : Prop :=
  (∃ rest, line = Tok.gt :: rest) ∨
  ∃ a b rest, line = Tok.num a :: Tok.num b :: rest

/-- The segments the loop emits from a chunk list, given the pending
accumulators x, y: the pending segment is continued by the first chunk,
each chunk closed by a marker is kept when non-empty, and the final
chunk is discarded. -/
def emit (x y : List ℚ) : List (List (List Tok)) → List (List ℚ × List ℚ)
  | [] => []
  | [_] => []
  | c :: cs =>
    (if x ++ c.map xValOf = [] then []
     else [(x ++ c.map xValOf, y ++ c.map yValOf)]) ++ emit [] [] cs

noncomputable section

/-! Helper lemmas shared by several proofs. -/

lemma length_sq_eq (v : Fin 3 → ℝ) :
    length v ^ 2 = v 0 ^ 2 + v 1 ^ 2 + v 2 ^ 2 := by
  have hd : v ⬝ᵥ v = v 0 ^ 2 + v 1 ^ 2 + v 2 ^ 2 := by
    simp only [Matrix.dotProduct, Fin.sum_univ_three]
    ring
  have hnn : (0 : ℝ) ≤ v ⬝ᵥ v := by
    rw [hd]
    positivity
  rw [length, Real.sq_sqrt hnn, hd]

lemma length_nonneg (v : Fin 3 → ℝ) : 0 ≤ length v := Real.sqrt_nonneg _

lemma length_positionVector_eq_one (lon lat : ℝ) :
    length (positionVector lon lat) = 1 := by
  have h : positionVector lon lat ⬝ᵥ positionVector lon lat = 1 := by
    simp only [positionVector, Matrix.dotProduct, Fin.sum_univ_three,
      Matrix.cons_val_zero, Matrix.cons_val_one, Matrix.head_cons,
      Matrix.cons_val_two, Matrix.tail_cons]
    linear_combination (Real.cos (radians lat)) ^ 2 *
        Real.sin_sq_add_cos_sq (radians lon) +
      Real.sin_sq_add_cos_sq (radians lat)
  rw [length, h, Real.sqrt_one]

lemma M_transpose_eq (h : Fin 3 → ℝ) : (M h)ᵀ = -(M h) := by
  ext i j
  fin_cases i <;> fin_cases j <;>
    simp [M]

lemma npMod_eq_self {a : ℝ} (h0 : 0 ≤ a) (h1 : a < 360) : npMod a 360 = a := by
  have hfl : ⌊a / 360⌋ = 0 := by
    rw [Int.floor_eq_zero_iff]
    constructor
    · positivity
    · rw [div_lt_one (by norm_num : (0:ℝ) < 360)]
      exact h1
  simp [npMod, hfl]

lemma npMod_neg_eq {a : ℝ} (h0 : -360 ≤ a) (h1 : a < 0) :
    npMod a 360 = a + 360 := by
  have hfl : ⌊a / 360⌋ = -1 := by
    rw [Int.floor_eq_iff]
    constructor
    · push_cast
      rw [le_div_iff (by norm_num : (0:ℝ) < 360)]
      linarith
    · push_cast
      rw [div_lt_iff (by norm_num : (0:ℝ) < 360)]
      linarith
  rw [npMod, hfl]
  push_cast
  ring

/-! C4: the identity branch. -/

lemma length_zero_vec : length ![(0:ℝ), 0, 0] = 0 := by
  have : (![(0:ℝ), 0, 0]) ⬝ᵥ (![(0:ℝ), 0, 0]) = 0 := by
    simp [Matrix.dotProduct, Fin.sum_univ_three]
  rw [length, this, Real.sqrt_zero]

/-- C4: rotationMatrix applied to the zero vector takes the angle = 0
branch (length of the zero vector is 0) and returns exactly the 3x3
identity matrix. -/
theorem rotationMatrix_zero_eq_identity :
    length ![(0:ℝ), 0, 0] = 0 ∧ rotationMatrix ![(0:ℝ), 0, 0] = 1 := by
  refine ⟨length_zero_vec, ?_⟩
  rw [rotationMatrix, if_pos length_zero_vec]

/-- C5: every position vector built from a GeoPoint has length exactly 1
(floating-point tolerance becomes exact equality over the reals). -/
theorem positionVector_unit_length (lon lat : ℝ) :
    length (positionVector lon lat) = 1 :=
  length_positionVector_eq_one lon lat

/-- C5 witness at the concrete GeoPoint (174.785, -37.0082). -/
theorem positionVector_unit_length_witness :
    length (positionVector 174.785 (-37.0082)) = 1 :=
  positionVector_unit_length 174.785 (-37.0082)

/-- C6: M h is exactly the stated skew matrix, it is antisymmetric with a
zero diagonal, and multiplying it by any vector u gives the cross
product h x u. -/
theorem M_skew_and_cross (h : Fin 3 → ℝ) :
    M h = !![0, -h 2, h 1; h 2, 0, -h 0; -h 1, h 0, 0] ∧
    (M h)ᵀ = -(M h) ∧
    (∀ i, M h i i = 0) ∧
    ∀ u : Fin 3 → ℝ, (M h).mulVec u = crossProduct h u := by
  refine ⟨rfl, M_transpose_eq h, ?_, ?_⟩
  · intro i
    fin_cases i <;> simp [M]
  · intro u
    funext i
    rw [cross_apply]
    fin_cases i <;>
      simp [M, Matrix.mulVec, Matrix.dotProduct, Fin.sum_univ_three] <;>
      ring

/-- C8: on a vector (0, 0, z) with z nonzero the x = 0 branch fires with
y = 0, np.sign(0) = 0 makes the raw longitude 0, and the mod-360
reduction leaves it at 0. -/
theorem lonlat_polar_lon_zero (z : ℝ) (hz : z ≠ 0) :
    Real.sign (0:ℝ) = 0 ∧ (lonlat ![(0:ℝ), 0, z]).1 = 0 := by
  refine ⟨Real.sign_zero, ?_⟩
  have hb : lonBranch 0 0 = 0 := by
    rw [lonBranch, if_pos rfl, Real.sign_zero, zero_mul]
  have h0 : (![(0:ℝ), 0, z]) 0 = 0 := rfl
  have h1 : (![(0:ℝ), 0, z]) 1 = 0 := rfl
  show npMod (lonBranch ((![(0:ℝ), 0, z]) 0 / length ![(0:ℝ), 0, z])
      ((![(0:ℝ), 0, z]) 1 / length ![(0:ℝ), 0, z])) 360 = 0
  rw [h0, h1, zero_div, hb, npMod_eq_self le_rfl (by norm_num)]

/-- C8 witness at z = 1. -/
theorem lonlat_polar_lon_zero_witness :
    Real.sign (0:ℝ) = 0 ∧ (lonlat ![(0:ℝ), 0, 1]).1 = 0 :=
  lonlat_polar_lon_zero 1 one_ne_zero

/-! C1: round-trip through positionVector and lonlat. -/

lemma lonBranch_zero_zero : lonBranch 0 0 = 0 := by
  rw [lonBranch, if_pos rfl, Real.sign_zero, zero_mul]

lemma deg_radians (x : ℝ) : degrees (radians x) = x := by
  rw [degrees, radians]
  field_simp

lemma radians_lt_radians {a b : ℝ} (h : a < b) : radians a < radians b := by
  rw [radians, radians]
  have hπ := Real.pi_pos
  nlinarith

lemma radians_90 : radians 90 = π / 2 := by rw [radians]; ring

lemma radians_180 : radians 180 = π := by rw [radians]; ring

lemma radians_270 : radians 270 = π + π / 2 := by rw [radians]; ring

lemma radians_360 : radians 360 = 2 * π := by rw [radians]; ring

lemma degrees_sub_pi (x : ℝ) : degrees (radians x - π) = x - 180 := by
  rw [degrees, radians]
  field_simp
  ring

lemma degrees_sub_two_pi (x : ℝ) : degrees (radians x - 2 * π) = x - 360 := by
  rw [degrees, radians]
  field_simp
  ring

lemma quot_tan (θ cb : ℝ) (hcb : cb ≠ 0) :
    Real.sin θ * cb / (Real.cos θ * cb) = Real.tan θ := by
  rcases eq_or_ne (Real.cos θ) 0 with hc | hc
  · simp [hc, Real.tan_eq_sin_div_cos]
  · rw [Real.tan_eq_sin_div_cos]
    field_simp
    ring

/-- The longitude branch of lonlat recovers lon exactly on the unit
circle scaled by any positive factor cb (the cosine of the latitude). -/
lemma lonBranch_recover (lon cb : ℝ) (h0 : 0 ≤ lon) (h1 : lon < 360)
    (hcb : 0 < cb) :
    npMod (lonBranch (Real.cos (radians lon) * cb)
      (Real.sin (radians lon) * cb)) 360 = lon := by
  have hπ := Real.pi_pos
  rcases lt_or_le lon 90 with hA | hge90
  · have hθ0 : 0 ≤ radians lon := by
      rw [radians]
      nlinarith
    have hθlt : radians lon < π / 2 := by
      have := radians_lt_radians hA
      rwa [radians_90] at this
    have hcos : 0 < Real.cos (radians lon) :=
      Real.cos_pos_of_mem_Ioo ⟨by linarith, hθlt⟩
    have hx : 0 < Real.cos (radians lon) * cb := mul_pos hcos hcb
    rw [lonBranch, if_neg (ne_of_gt hx), if_pos hx,
      quot_tan _ _ (ne_of_gt hcb), Real.arctan_tan (by linarith) hθlt,
      deg_radians, npMod_eq_self h0 h1]
  · rcases eq_or_lt_of_le hge90 with hB | hgt90
    · subst hB
      rw [radians_90, Real.cos_pi_div_two, Real.sin_pi_div_two, zero_mul,
        one_mul, lonBranch, if_pos rfl, Real.sign_of_pos hcb, one_mul,
        npMod_eq_self (by norm_num) (by norm_num)]
    · rcases lt_or_le lon 180 with hC | hge180
      · have hθgt : π / 2 < radians lon := by
          have := radians_lt_radians hgt90
          rwa [radians_90] at this
        have hθlt : radians lon < π := by
          have := radians_lt_radians hC
          rwa [radians_180] at this
        have hcos : Real.cos (radians lon) < 0 :=
          Real.cos_neg_of_pi_div_two_lt_of_lt hθgt (by linarith)
        have hsin : 0 < Real.sin (radians lon) :=
          Real.sin_pos_of_pos_of_lt_pi (by linarith) hθlt
        have hx : Real.cos (radians lon) * cb < 0 :=
          mul_neg_of_neg_of_pos hcos hcb
        have hy : 0 < Real.sin (radians lon) * cb := mul_pos hsin hcb
        have htan : Real.tan (radians lon - π) = Real.tan (radians lon) :=
          Real.tan_periodic.sub_eq _
        rw [lonBranch, if_neg (ne_of_lt hx), if_neg (not_lt.mpr (le_of_lt hx)),
          if_neg (ne_of_gt hy), quot_tan _ _ (ne_of_gt hcb), ← htan,
          Real.arctan_tan (by linarith) (by linarith), degrees_sub_pi,
          Real.sign_of_pos hy,
          show (1:ℝ) * 180 + (lon - 180) = lon by ring,
          npMod_eq_self h0 h1]
      · rcases eq_or_lt_of_le hge180 with hD | hgt180
        · subst hD
          rw [radians_180, Real.cos_pi, Real.sin_pi, zero_mul]
          have hx : (-1 : ℝ) * cb < 0 := by linarith
          rw [lonBranch, if_neg (ne_of_lt hx),
            if_neg (not_lt.mpr (le_of_lt hx)), if_pos rfl, zero_div,
            Real.arctan_zero, show degrees 0 = 0 by rw [degrees]; ring,
            show (180:ℝ) + 0 = 180 by ring,
            npMod_eq_self (by norm_num) (by norm_num)]
        · rcases lt_or_le lon 270 with hE | hge270
          · have hθgt : π < radians lon := by
              have := radians_lt_radians hgt180
              rwa [radians_180] at this
            have hθlt : radians lon < π + π / 2 := by
              have := radians_lt_radians hE
              rwa [radians_270] at this
            have hcos : Real.cos (radians lon) < 0 :=
              Real.cos_neg_of_pi_div_two_lt_of_lt (by linarith) hθlt
            have hsin : Real.sin (radians lon) < 0 := by
              have h2 : 0 < Real.sin (radians lon - π) :=
                Real.sin_pos_of_pos_of_lt_pi (by linarith) (by linarith)
              rw [Real.sin_sub_pi] at h2
              linarith
            have hx : Real.cos (radians lon) * cb < 0 :=
              mul_neg_of_neg_of_pos hcos hcb
            have hy : Real.sin (radians lon) * cb < 0 :=
              mul_neg_of_neg_of_pos hsin hcb
            have htan : Real.tan (radians lon - π) = Real.tan (radians lon) :=
              Real.tan_periodic.sub_eq _
            rw [lonBranch, if_neg (ne_of_lt hx),
              if_neg (not_lt.mpr (le_of_lt hx)), if_neg (ne_of_lt hy),
              quot_tan _ _ (ne_of_gt hcb), ← htan,
              Real.arctan_tan (by linarith) (by linarith), degrees_sub_pi,
              Real.sign_of_neg hy,
              show (-1:ℝ) * 180 + (lon - 180) = lon - 360 by ring,
              npMod_neg_eq (by linarith) (by linarith)]
            ring
          · rcases eq_or_lt_of_le hge270 with hF | hgt270
            · subst hF
              have hc270 : Real.cos (radians 270) = 0 := by
                rw [radians_270, Real.cos_add, Real.cos_pi, Real.sin_pi,
                  Real.cos_pi_div_two, Real.sin_pi_div_two]
                ring
              have hs270 : Real.sin (radians 270) = -1 := by
                rw [radians_270, Real.sin_add, Real.sin_pi, Real.cos_pi,
                  Real.cos_pi_div_two, Real.sin_pi_div_two]
                ring
              have hy : (-1 : ℝ) * cb < 0 := by linarith
              rw [hc270, hs270, zero_mul, lonBranch, if_pos rfl,
                Real.sign_of_neg hy, show (-1:ℝ) * 90 = -90 by ring,
                npMod_neg_eq (by norm_num) (by norm_num)]
              norm_num
            · have hθgt : π + π / 2 < radians lon := by
                have := radians_lt_radians hgt270
                rwa [radians_270] at this
              have hθlt : radians lon < 2 * π := by
                have := radians_lt_radians h1
                rwa [radians_360] at this
              have hcos : 0 < Real.cos (radians lon) := by
                rw [← Real.cos_sub_two_pi]
                exact Real.cos_pos_of_mem_Ioo ⟨by linarith, by linarith⟩
              have hx : 0 < Real.cos (radians lon) * cb := mul_pos hcos hcb
              have htan : Real.tan (radians lon - 2 * π)
                  = Real.tan (radians lon) := by
                rw [show radians lon - 2 * π = radians lon - π - π by ring,
                  Real.tan_periodic.sub_eq, Real.tan_periodic.sub_eq]
              rw [lonBranch, if_neg (ne_of_gt hx), if_pos hx,
                quot_tan _ _ (ne_of_gt hcb), ← htan,
                Real.arctan_tan (by linarith) (by linarith),
                degrees_sub_two_pi, npMod_neg_eq (by linarith) (by linarith)]
              ring

/-- The round-trip lonlat(positionVector(p)) = p holds exactly in real
arithmetic for every longitude in [0, 360) and every latitude strictly
inside (-90, 90).  The pole latitudes are excluded because there the
exact-real semantics diverges from the machine program: over the reals
cos(pi/2) = 0 exactly and the x = 0 branch fires (see the pole lemma
below), whereas in IEEE doubles cos(radians(90)) is a tiny nonzero
residue, the x-sign branches fire, and the program still recovers the
longitude within tolerance.  The pole behaviour of the claim is thus a
floating-point property outside this real-number embedding. -/
theorem lonlat_positionVector_roundtrip (lon lat : ℝ) (h0 : 0 ≤ lon)
    (h1 : lon < 360) (h2 : -90 < lat) (h3 : lat < 90) :
    lonlat (positionVector lon lat) = (lon, lat) := by
  have hlen := length_positionVector_eq_one lon lat
  have hlatlo : -(π / 2) < radians lat := by
    have := radians_lt_radians h2
    rwa [show radians (-90) = -(π / 2) by rw [radians]; ring] at this
  have hlathi : radians lat < π / 2 := by
    have := radians_lt_radians h3
    rwa [radians_90] at this
  have hcb : 0 < Real.cos (radians lat) :=
    Real.cos_pos_of_mem_Ioo ⟨hlatlo, hlathi⟩
  have hc0 : (positionVector lon lat) 0
      = Real.cos (radians lon) * Real.cos (radians lat) := rfl
  have hc1 : (positionVector lon lat) 1
      = Real.sin (radians lon) * Real.cos (radians lat) := rfl
  have hc2 : (positionVector lon lat) 2 = Real.sin (radians lat) := rfl
  rw [lonlat, hlen, hc0, hc1, hc2]
  simp only [div_one, Prod.mk.injEq]
  refine ⟨lonBranch_recover lon (Real.cos (radians lat)) h0 h1 hcb, ?_⟩
  rw [Real.arcsin_sin (le_of_lt hlatlo) (le_of_lt hlathi), deg_radians]

/-- Round-trip instance at the GeoPoint (45, 45). -/
theorem lonlat_positionVector_roundtrip_witness :
    lonlat (positionVector 45 45) = (45, 45) :=
  lonlat_positionVector_roundtrip 45 45 (by norm_num) (by norm_num)
    (by norm_num) (by norm_num)

/-- Pole degeneracy of the exact-real model (not of the machine
program): over the reals cos(pi/2) = 0 exactly, so positionVector of
(180, 90) is (0, 0, 1) and the x = 0 branch with sign(0) = 0 collapses
the longitude to 0.  The floating-point program does not trace this
branch at the poles, because cos(radians(90)) rounds to a nonzero
residue there; this lemma documents only where the real-number
embedding stops being faithful to the float code. -/
theorem lonlat_positionVector_pole_model :
    (0:ℝ) ≤ 180 ∧ (180:ℝ) < 360 ∧ (-90:ℝ) ≤ 90 ∧ (90:ℝ) ≤ 90 ∧
    lonlat (positionVector 180 90) = (0, 90) ∧
    lonlat (positionVector 180 90) ≠ (180, 90) := by
  have hpv : positionVector 180 90 = ![(0:ℝ), 0, 1] := by
    funext i
    fin_cases i <;>
      simp [positionVector, radians_90, radians_180, Real.cos_pi_div_two,
        Real.sin_pi_div_two, Real.cos_pi, Real.sin_pi]
  have hlen : length ![(0:ℝ), 0, 1] = 1 := by
    have hd : (![(0:ℝ), 0, 1]) ⬝ᵥ (![(0:ℝ), 0, 1]) = 1 := by
      simp [Matrix.dotProduct, Fin.sum_univ_three]
    rw [length, hd, Real.sqrt_one]
  have hll : lonlat ![(0:ℝ), 0, 1] = (0, 90) := by
    have h0 : (![(0:ℝ), 0, 1]) 0 = 0 := rfl
    have h1 : (![(0:ℝ), 0, 1]) 1 = 0 := rfl
    have h2 : (![(0:ℝ), 0, 1]) 2 = 1 := rfl
    have hdeg : degrees (π / 2) = 90 := by
      rw [degrees]
      field_simp
      ring
    rw [lonlat, hlen, h0, h1, h2, div_one, div_one, lonBranch_zero_zero,
      npMod_eq_self le_rfl (by norm_num), Real.arcsin_one, hdeg]
  refine ⟨by norm_num, by norm_num, by norm_num, le_rfl, ?_, ?_⟩
  · rw [hpv, hll]
  · rw [hpv, hll]
    intro hEq
    have := congrArg Prod.fst hEq
    norm_num at this

/-! Rodrigues algebra: helper lemmas for C2, C3, C10. -/

lemma pole_unit (h : Fin 3 → ℝ) (hL : length h ≠ 0) :
    (h 0 / length h) ^ 2 + (h 1 / length h) ^ 2 + (h 2 / length h) ^ 2 = 1 := by
  field_simp
  linarith [length_sq_eq h]

lemma rodrigues_transpose (p : Fin 3 → ℝ) (s c : ℝ) :
    (1 + s • M p + (1 - c) • (M p * M p))ᵀ
      = 1 - s • M p + (1 - c) • (M p * M p) := by
  have h2 : (M p * M p)ᵀ = M p * M p := by
    rw [Matrix.transpose_mul, M_transpose_eq, Matrix.neg_mul, Matrix.mul_neg,
      neg_neg]
  rw [Matrix.transpose_add, Matrix.transpose_add, Matrix.transpose_one,
    Matrix.transpose_smul, Matrix.transpose_smul, M_transpose_eq, h2,
    smul_neg]
  abel

lemma rodrigues_flip_mul (p : Fin 3 → ℝ) (s c : ℝ)
    (hp : p 0 ^ 2 + p 1 ^ 2 + p 2 ^ 2 = 1) (hsc : s ^ 2 + c ^ 2 = 1) :
    (1 - s • M p + (1 - c) • (M p * M p)) *
      (1 + s • M p + (1 - c) • (M p * M p)) = 1 := by
  ext i j
  fin_cases i <;> fin_cases j <;>
    simp [M, Matrix.mul_apply, Matrix.one_apply, Fin.sum_univ_three]
  · linear_combination (-(1 - c) ^ 2 * (p 0 * p 0 - (p 0 ^ 2 + p 1 ^ 2 + p 2 ^ 2))) * hp +
      (-(p 0 * p 0 - (p 0 ^ 2 + p 1 ^ 2 + p 2 ^ 2))) * hsc
  · linear_combination (-(1 - c) ^ 2 * (p 0 * p 1)) * hp + (-(p 0 * p 1)) * hsc
  · linear_combination (-(1 - c) ^ 2 * (p 0 * p 2)) * hp + (-(p 0 * p 2)) * hsc
  · linear_combination (-(1 - c) ^ 2 * (p 1 * p 0)) * hp + (-(p 1 * p 0)) * hsc
  · linear_combination (-(1 - c) ^ 2 * (p 1 * p 1 - (p 0 ^ 2 + p 1 ^ 2 + p 2 ^ 2))) * hp +
      (-(p 1 * p 1 - (p 0 ^ 2 + p 1 ^ 2 + p 2 ^ 2))) * hsc
  · linear_combination (-(1 - c) ^ 2 * (p 1 * p 2)) * hp + (-(p 1 * p 2)) * hsc
  · linear_combination (-(1 - c) ^ 2 * (p 2 * p 0)) * hp + (-(p 2 * p 0)) * hsc
  · linear_combination (-(1 - c) ^ 2 * (p 2 * p 1)) * hp + (-(p 2 * p 1)) * hsc
  · linear_combination (-(1 - c) ^ 2 * (p 2 * p 2 - (p 0 ^ 2 + p 1 ^ 2 + p 2 ^ 2))) * hp +
      (-(p 2 * p 2 - (p 0 ^ 2 + p 1 ^ 2 + p 2 ^ 2))) * hsc

lemma rodrigues_det (p : Fin 3 → ℝ) (s c : ℝ)
    (hp : p 0 ^ 2 + p 1 ^ 2 + p 2 ^ 2 = 1) (hsc : s ^ 2 + c ^ 2 = 1) :
    (1 + s • M p + (1 - c) • (M p * M p)).det = 1 := by
  rw [Matrix.det_fin_three]
  simp [M, Matrix.mul_apply, Matrix.one_apply, Fin.sum_univ_three]
  linear_combination (s ^ 2 + 2 * (1 - c) ^ 2 - 2 * (1 - c) +
      (p 0 ^ 2 + p 1 ^ 2 + p 2 ^ 2 - 1) * (1 - c) ^ 2) * hp + hsc

lemma rotationMatrix_eq_rodrigues (h : Fin 3 → ℝ) (hL : length h ≠ 0) :
    rotationMatrix h = 1 + Real.sin (length h) • M (fun i => h i / length h)
      + (1 - Real.cos (length h)) •
          (M (fun i => h i / length h) * M (fun i => h i / length h)) := by
  rw [rotationMatrix, if_neg hL]

lemma rotationMatrix_transpose_mul_self (h : Fin 3 → ℝ) :
    (rotationMatrix h)ᵀ * rotationMatrix h = 1 := by
  by_cases hL : length h = 0
  · rw [rotationMatrix, if_pos hL]
    simp
  · rw [rotationMatrix_eq_rodrigues h hL, rodrigues_transpose]
    exact rodrigues_flip_mul _ _ _ (pole_unit h hL)
      (Real.sin_sq_add_cos_sq (length h))

lemma mulVec_dot_self (A : Matrix (Fin 3) (Fin 3) ℝ) (hA : Aᵀ * A = 1)
    (v : Fin 3 → ℝ) : A.mulVec v ⬝ᵥ A.mulVec v = v ⬝ᵥ v := by
  have h1 : v ⬝ᵥ (Aᵀ * A).mulVec v = A.mulVec v ⬝ᵥ A.mulVec v := by
    rw [← Matrix.mulVec_mulVec, Matrix.dotProduct_mulVec, Matrix.vecMul_transpose]
  rw [← h1, hA, Matrix.one_mulVec]

/-- C2: the rotation matrix of any 3-vector h is orthogonal (transpose
times itself is the identity), has determinant 1, and applying it
preserves vector length; all exactly over the reals. -/
theorem rotationMatrix_orthonormal (h : Fin 3 → ℝ) :
    (rotationMatrix h)ᵀ * rotationMatrix h = 1 ∧
    (rotationMatrix h).det = 1 ∧
    ∀ v : Fin 3 → ℝ, length ((rotationMatrix h).mulVec v) = length v := by
  refine ⟨rotationMatrix_transpose_mul_self h, ?_, ?_⟩
  · by_cases hL : length h = 0
    · rw [rotationMatrix, if_pos hL]
      simp
    · rw [rotationMatrix_eq_rodrigues h hL]
      exact rodrigues_det _ _ _ (pole_unit h hL)
        (Real.sin_sq_add_cos_sq (length h))
  · intro v
    rw [length, length, mulVec_dot_self _ (rotationMatrix_transpose_mul_self h)]

/-! C10: negating the rotation vector inverts the rotation. -/

lemma length_neg (h : Fin 3 → ℝ) : length (-h) = length h := by
  have hdot : (-h) ⬝ᵥ (-h) = h ⬝ᵥ h := by
    simp only [Matrix.dotProduct, Fin.sum_univ_three, Pi.neg_apply]
    ring
  rw [length, length, hdot]

lemma M_neg (p : Fin 3 → ℝ) : M (-p) = -(M p) := by
  ext i j
  fin_cases i <;> fin_cases j <;> simp [M]

/-- C10: rotationMatrix of the negated vector is the transpose of
rotationMatrix of the vector, hence their product is exactly the
identity: negating the rotation vector inverts the rotation. -/
theorem rotationMatrix_neg (h : Fin 3 → ℝ) :
    rotationMatrix (-h) = (rotationMatrix h)ᵀ ∧
    rotationMatrix h * rotationMatrix (-h) = 1 := by
  have hEq : rotationMatrix (-h) = (rotationMatrix h)ᵀ := by
    by_cases hL : length h = 0
    · have hLn : length (-h) = 0 := by rw [length_neg, hL]
      rw [rotationMatrix, if_pos hLn, rotationMatrix, if_pos hL,
        Matrix.transpose_one]
    · have hLn : length (-h) ≠ 0 := by
        rw [length_neg]
        exact hL
      rw [rotationMatrix_eq_rodrigues h hL, rotationMatrix_eq_rodrigues (-h) hLn,
        rodrigues_transpose, length_neg]
      have hpole : (fun i => (-h) i / length h) = -(fun i => h i / length h) := by
        funext i
        simp [neg_div]
      rw [hpole, M_neg, Matrix.neg_mul, Matrix.mul_neg, neg_neg, smul_neg]
      abel
  refine ⟨hEq, ?_⟩
  rw [hEq]
  exact Matrix.mul_eq_one_comm.mp (rotationMatrix_transpose_mul_self h)

/-! C3: hVector recovers the rotation vector for angles in (0, pi). -/

/-- C3: for a rotation vector whose magnitude (the angle in radians) lies
strictly between 0 and pi, hVector of rotationMatrix recovers the vector
exactly. -/
theorem hVector_rotationMatrix (h : Fin 3 → ℝ) (h0 : 0 < length h)
    (hπ : length h < π) : hVector (rotationMatrix h) = h := by
  have hL : length h ≠ 0 := ne_of_gt h0
  have hR := rotationMatrix_eq_rodrigues h hL
  have hp : (h 0 / length h) ^ 2 + (h 1 / length h) ^ 2 +
      (h 2 / length h) ^ 2 = 1 := pole_unit h hL
  have hs_pos : 0 < Real.sin (length h) :=
    Real.sin_pos_of_pos_of_lt_pi h0 hπ
  have htr : Matrix.trace (rotationMatrix h) = 1 + 2 * Real.cos (length h) := by
    rw [hR, Matrix.trace_fin_three]
    simp [M, Matrix.mul_apply, Matrix.one_apply, Fin.sum_univ_three]
    linear_combination (-2 * (1 - Real.cos (length h))) * hp
  have hangle : Real.arccos ((Matrix.trace (rotationMatrix h) - 1) / 2)
      = length h := by
    rw [htr, show (1 + 2 * Real.cos (length h) - 1) / 2 = Real.cos (length h)
      by ring]
    exact Real.arccos_cos (le_of_lt h0) (le_of_lt hπ)
  have hv0 : rotationMatrix h 2 1 - rotationMatrix h 1 2
      = 2 * Real.sin (length h) * (h 0 / length h) := by
    rw [hR]
    simp [M, Matrix.mul_apply, Matrix.one_apply, Fin.sum_univ_three]
    ring
  have hv1 : rotationMatrix h 0 2 - rotationMatrix h 2 0
      = 2 * Real.sin (length h) * (h 1 / length h) := by
    rw [hR]
    simp [M, Matrix.mul_apply, Matrix.one_apply, Fin.sum_univ_three]
    ring
  have hv2 : rotationMatrix h 1 0 - rotationMatrix h 0 1
      = 2 * Real.sin (length h) * (h 2 / length h) := by
    rw [hR]
    simp [M, Matrix.mul_apply, Matrix.one_apply, Fin.sum_univ_three]
    ring
  have hvecEq : (![rotationMatrix h 2 1 - rotationMatrix h 1 2,
      rotationMatrix h 0 2 - rotationMatrix h 2 0,
      rotationMatrix h 1 0 - rotationMatrix h 0 1]) =
      ![2 * Real.sin (length h) * (h 0 / length h),
        2 * Real.sin (length h) * (h 1 / length h),
        2 * Real.sin (length h) * (h 2 / length h)] := by
    rw [hv0, hv1, hv2]
  have hlenvec : length ![2 * Real.sin (length h) * (h 0 / length h),
      2 * Real.sin (length h) * (h 1 / length h),
      2 * Real.sin (length h) * (h 2 / length h)] = 2 * Real.sin (length h) := by
    have hd : (![2 * Real.sin (length h) * (h 0 / length h),
        2 * Real.sin (length h) * (h 1 / length h),
        2 * Real.sin (length h) * (h 2 / length h)]) ⬝ᵥ
        (![2 * Real.sin (length h) * (h 0 / length h),
        2 * Real.sin (length h) * (h 1 / length h),
        2 * Real.sin (length h) * (h 2 / length h)]) =
        (2 * Real.sin (length h)) ^ 2 := by
      simp only [Matrix.dotProduct, Fin.sum_univ_three, Matrix.cons_val_zero,
        Matrix.cons_val_one, Matrix.head_cons, Matrix.cons_val_two,
        Matrix.tail_cons]
      linear_combination (4 * Real.sin (length h) ^ 2) * hp
    rw [length, hd, Real.sqrt_sq (by linarith)]
  funext i
  simp only [hVector]
  rw [hvecEq, hangle, hlenvec]
  have hvec_at : (![2 * Real.sin (length h) * (h 0 / length h),
      2 * Real.sin (length h) * (h 1 / length h),
      2 * Real.sin (length h) * (h 2 / length h)]) i
      = 2 * Real.sin (length h) * (h i / length h) := by
    fin_cases i <;> rfl
  rw [hvec_at]
  field_simp
  ring

/-- C3 witness at the rotation vector (1, 0, 0), whose angle 1 lies in
(0, pi). -/
theorem hVector_rotationMatrix_witness :
    hVector (rotationMatrix ![(1:ℝ), 0, 0]) = ![(1:ℝ), 0, 0] :=
  hVector_rotationMatrix ![(1:ℝ), 0, 0]
    (by
      have hd : (![(1:ℝ), 0, 0]) ⬝ᵥ (![(1:ℝ), 0, 0]) = 1 := by
        simp [Matrix.dotProduct, Fin.sum_univ_three]
      rw [length, hd, Real.sqrt_one]
      norm_num)
    (by
      have hd : (![(1:ℝ), 0, 0]) ⬝ᵥ (![(1:ℝ), 0, 0]) = 1 := by
        simp [Matrix.dotProduct, Fin.sum_univ_three]
      rw [length, hd, Real.sqrt_one]
      linarith [Real.pi_gt_three])

/-! C7: the shape guards. -/

/-- C7: each of lonlat, M and rotationMatrix rejects (ValueError, modelled
as none) every input whose number of components is not exactly 3; in
particular inputs of length 2 and of length 4. -/
theorem shape_guards_reject (v : List ℝ) (hv : v.length ≠ 3) :
    lonlatChecked v = none ∧ MChecked v = none ∧
      rotationMatrixChecked v = none := by
  refine ⟨?_, ?_, ?_⟩ <;>
    simp [lonlatChecked, MChecked, rotationMatrixChecked, hv]

/-- C7 witness: the guards reject the concrete inputs [1, 2] (length 2)
and [1, 2, 3, 4] (length 4). -/
theorem shape_guards_reject_witness :
    (lonlatChecked [1, 2] = none ∧ MChecked [1, 2] = none ∧
        rotationMatrixChecked [1, 2] = none) ∧
    (lonlatChecked [1, 2, 3, 4] = none ∧ MChecked [1, 2, 3, 4] = none ∧
        rotationMatrixChecked [1, 2, 3, 4] = none) :=
  ⟨shape_guards_reject [1, 2] (by norm_num),
   shape_guards_reject [1, 2, 3, 4] (by norm_num)⟩

end

/-! C9: the GMT xy reader. -/

lemma chunks_ne_nil (ls : List (List Tok)) : chunks ls ≠ [] := by
  induction ls with
  | nil => simp [chunks]
  | cons l ls ih =>
    simp only [chunks]
    split
    · simp
    · split <;> simp

lemma emit_single (x y : List ℚ) (c : List (List Tok)) : emit x y [c] = [] :=
  rfl

lemma emit_cons (x y : List ℚ) (c c2 : List (List Tok))
    (cs : List (List (List Tok))) :
    emit x y (c :: c2 :: cs) =
      (if x ++ c.map xValOf = [] then []
       else [(x ++ c.map xValOf, y ++ c.map yValOf)]) ++ emit [] [] (c2 :: cs) :=
  rfl

lemma emit_eq_spec (cs : List (List (List Tok))) :
    emit [] [] cs = ((cs.dropLast).filter (fun c => !c.isEmpty)).map segOf := by
  induction cs with
  | nil => rfl
  | cons c cs ih =>
    cases cs with
    | nil => rfl
    | cons c2 cs2 =>
      rw [emit_cons, List.dropLast_cons₂, List.filter_cons]
      cases c with
      | nil => simpa using ih
      | cons t ts => simp [segOf, ih]

lemma readGMTxyGo_eq_emit : ∀ lines : List (List Tok),
    (∀ l ∈ lines, wfLine l) →
    ∀ (feature : List (List ℚ × List ℚ)) (x y : List ℚ),
    readGMTxyGo lines feature x y
      = some (feature ++ emit x y (chunks lines)) := by
  intro lines
  induction lines with
  | nil =>
    intro _ feature x y
    simp [readGMTxyGo, chunks, emit_single]
  | cons l ls ih =>
    intro hwf feature x y
    have hls : ∀ l2 ∈ ls, wfLine l2 :=
      fun l2 h2 => hwf l2 (List.mem_cons_of_mem _ h2)
    obtain ⟨c, cs, hcs⟩ : ∃ c cs, chunks ls = c :: cs := by
      cases hch : chunks ls with
      | nil => exact absurd hch (chunks_ne_nil ls)
      | cons c cs => exact ⟨c, cs, rfl⟩
    rcases hwf l (List.mem_cons_self _ _) with ⟨rest, rfl⟩ | ⟨a, b, rest, rfl⟩
    · have hchunks : chunks ((Tok.gt :: rest) :: ls) = [] :: chunks ls := by
        simp [chunks, isMarker]
      rw [hchunks, hcs, emit_cons]
      simp only [readGMTxyGo, if_pos rfl, List.map_nil, List.append_nil]
      by_cases hx : x = []
      · subst hx
        rw [if_pos rfl, ih hls feature [] [], hcs]
        simp
      · rw [if_neg hx, if_neg hx, ih hls (feature ++ [(x, y)]) [] [], hcs]
        simp
    · have hchunks : chunks ((Tok.num a :: Tok.num b :: rest) :: ls)
          = ((Tok.num a :: Tok.num b :: rest) :: c) :: cs := by
        simp [chunks, isMarker, hcs]
      rw [hchunks]
      simp only [readGMTxyGo, floatOf,
        if_neg (fun h => Tok.noConfusion h : ¬Tok.num a = Tok.gt)]
      rw [ih hls feature (x ++ [a]) (y ++ [b]), hcs]
      cases cs with
      | nil => rfl
      | cons c2 cs2 =>
        rw [emit_cons, emit_cons]
        simp [xValOf, yValOf]

/-- C9 (amended): on a file whose lines are each either a marker line
(first token ">") or a data line whose first two tokens are floats,
readGMTxy succeeds and returns, in file order, exactly the non-empty
segments that are closed by a later marker line, each as the pair of
its x list and its y list; the segment still open at end of file is
discarded. -/
theorem readGMTxy_contract (lines : List (List Tok))
    (hwf : ∀ l ∈ lines, wfLine l) :
    readGMTxy lines = some (readGMTxySpec lines) := by
  rw [readGMTxy, readGMTxyGo_eq_emit lines hwf [] [] [], List.nil_append,
    emit_eq_spec, readGMTxySpec]

/-- C9 witness on the concrete file
">", "1 2", "3 4", ">", "5 6":
the first marker-closed segment ([1, 3], [2, 4]) is returned and the
trailing open segment "5 6" is discarded. -/
theorem readGMTxy_contract_witness :
    readGMTxy [[Tok.gt], [Tok.num 1, Tok.num 2], [Tok.num 3, Tok.num 4],
      [Tok.gt], [Tok.num 5, Tok.num 6]]
      = some [([1, 3], [2, 4])] := by
  rw [readGMTxy_contract _ ?hwf]
  · rfl
  case hwf =>
    intro l hl
    simp only [List.mem_cons, List.not_mem_nil, or_false] at hl
    rcases hl with rfl | rfl | rfl | rfl | rfl
    · exact Or.inl ⟨[], rfl⟩
    · exact Or.inr ⟨1, 2, [], rfl⟩
    · exact Or.inr ⟨3, 4, [], rfl⟩
    · exact Or.inl ⟨[], rfl⟩
    · exact Or.inr ⟨5, 6, [], rfl⟩

/-- C9 counterexample to the claim as stated: the file with the single
data line "1 2" has one non-empty segment, holding the pair (1, 2), yet
readGMTxy returns the empty list: the loop only appends a segment when a
later marker line closes it, so the trailing segment is lost. -/
theorem readGMTxy_drops_trailing_segment :
    readGMTxy [[Tok.num 1, Tok.num 2]] = some [] ∧
    (([1], [2]) : List ℚ × List ℚ) ∉ ([] : List (List ℚ × List ℚ)) :=
  ⟨rfl, by simp⟩

end GPHS441
